import Mathlib

/-!
Verification development for the Excel mock-interview agent
(`agent.py`, `llm_service.py`, `prompts.py`, `app.py`).

Python strings are embedded as `List Char`.  Pure helpers from
`llm_service.py` become pure Lean functions; the stateful
`ExcelInterviewerAgent` becomes explicit state passing over an
`AgentState` record, with exceptions modelled by `Except` (the error
value carries the state as mutated up to the raise point, matching
Python's in-place mutation semantics).  The remote HTTP endpoint is
abstracted as an `HttpResult` oracle supplied to each operation.
-/

set_option maxRecDepth 10000

namespace Excelytix

/-- Whitespace recognised by Python `str.strip()` (ASCII fragment). -/
def pySpace (c : Char) : Bool :=
  c = ' ' || c = '\t' || c = '\n' || c = '\r' || c = '\x0b' || c = '\x0c'

/-- Python `str.strip()`: drop leading and trailing whitespace. -/
def pyStrip (l : List Char) : List Char :=
  ((l.dropWhile pySpace).reverse.dropWhile pySpace).reverse

/-- Index of the first element satisfying `p`, if any. -/
def firstIdxFrom (p : Char → Bool) : List Char → Option Nat
  | [] => none
  | c :: rest => if p c then some 0 else (firstIdxFrom p rest).map (· + 1)

/-- Python `str.find(c)`: index of first occurrence, `-1` if absent. -/
def pyFind (l : List Char) (c : Char) : Int :=
  match firstIdxFrom (fun x => x = c) l with
  | some i => (i : Int)
  | none => -1

/-- Python `str.rfind(c)`: index of last occurrence, `-1` if absent. -/
def pyRFind (l : List Char) (c : Char) : Int :=
  match firstIdxFrom (fun x => x = c) l.reverse with
  | some i => ((l.length - 1 - i : Nat) : Int)
  | none => -1

/-- Boolean prefix test on char lists. -/
def beginsWith : List Char → List Char → Bool
  | [], _ => true
  | _ :: _, [] => false
  | p :: ps, c :: cs => p = c && beginsWith ps cs

/-- The reasoning end-marker from `_parse_response`. -/
def thinkMarker : List Char := ("</think>").toList

/-- Python `marker in s` for the fixed marker (substring containment). -/
def hasMarker : List Char → Bool
  | [] => false
  | c :: rest => beginsWith thinkMarker (c :: rest) || hasMarker rest

/-- Python `s.split(marker, 1)[-1]`: what follows the first occurrence of
the marker; returns the whole string when the marker is absent. -/
def afterMarker : List Char → List Char
  | [] => []
  | c :: rest =>
    if beginsWith thinkMarker (c :: rest) then (c :: rest).drop thinkMarker.length
    else afterMarker rest

/-- The `clean_part` computed by `_parse_response` (lines 48-51 of
`llm_service.py`): the portion after the first reasoning marker when one
is present, otherwise the whole text, stripped. -/
def cleanPart (full_response : List Char) : List Char :=
  if hasMarker full_response then pyStrip (afterMarker full_response)
  else pyStrip full_response

/-- Embedding of `_parse_response` from `llm_service.py` (the spec's
`extract_json_payload`): isolate the part after any reasoning block,
strip it, then slice from the first brace-open to the last brace-close
when both exist in that order; otherwise return the stripped remainder. -/
def _parse_response (full_response : List Char) : List Char :=
  let clean_part := cleanPart full_response
  let start_index := pyFind clean_part '{'
  let end_index := pyRFind clean_part '}'
  if start_index ≠ -1 ∧ end_index ≠ -1 ∧ end_index > start_index then
    (clean_part.drop start_index.toNat).take (end_index.toNat + 1 - start_index.toNat)
  else
    clean_part

/-- Alias under the specification's name for the extractor. -/
def extract_json_payload : List Char → List Char := _parse_response

/-! JSON values, as produced by Python `json.loads`.  Numbers are
modelled as integers (the fragment exercised by this system); object
members keep their textual order, duplicates included, with lookups
taking the last binding exactly as a Python dict built by `json.loads`
would. -/

inductive Json where
  | null
  | bool (b : Bool)
  | num (n : Int)
  | str (s : List Char)
  | arr (elems : List Json)
  | obj (members : List (List Char × Json))

/-- Lookup in a JSON object member list; the last binding wins, matching
the dict `json.loads` builds. -/
def lookupLast (kvs : List (List Char × Json)) (key : List Char) : Option Json :=
  match kvs with
  | [] => none
  | kv :: rest =>
    match lookupLast rest key with
    | some v => some v
    | none => if kv.1 = key then some kv.2 else none

/-- Python `dict.get(key, default)`. -/
def dictGet (kvs : List (List Char × Json)) (key : List Char) (dflt : Json) : Json :=
  match lookupLast kvs key with
  | some v => v
  | none => dflt

/-- Python truthiness of a JSON value. -/
def pyTruthy : Json → Bool
  | .null => false
  | .bool b => b
  | .num n => n ≠ 0
  | .str s => !s.isEmpty
  | .arr xs => !xs.isEmpty
  | .obj kvs => !kvs.isEmpty

/-! A recursive-descent JSON parser modelling Python `json.loads` on the
fragment used by this system (objects, arrays, strings with the simple
escapes, integer numbers, literals).  Floats, `\u` escapes and the
nonstandard `NaN`/`Infinity` literals are outside the modelled fragment.
Recursion is bounded by explicit fuel. -/

/-- Whitespace skipped between JSON tokens. -/
def jsonWsChar (c : Char) : Bool :=
  c = ' ' || c = '\t' || c = '\n' || c = '\r'

/-- Skip inter-token whitespace. -/
def skipWs (l : List Char) : List Char := l.dropWhile jsonWsChar

/-- Consume a literal token, returning the remainder when it is a prefix. -/
def afterLit : List Char → List Char → Option (List Char)
  | [], l => some l
  | _ :: _, [] => none
  | p :: ps, c :: cs => if c = p then afterLit ps cs else none

/-- Parse the body of a JSON string after the opening quote, decoding the
simple escapes; returns the decoded text and the remainder after the
closing quote. -/
def parseStringBody : List Char → Option (List Char × List Char)
  | [] => none
  | c :: rest =>
    if c = '"' then some ([], rest)
    else if c = '\\' then
      match rest with
      | [] => none
      | e :: rest2 =>
        let dec : Option Char :=
          if e = '"' then some '"'
          else if e = '\\' then some '\\'
          else if e = '/' then some '/'
          else if e = 'n' then some '\n'
          else if e = 't' then some '\t'
          else if e = 'r' then some '\r'
          else if e = 'b' then some (Char.ofNat 8)
          else if e = 'f' then some (Char.ofNat 12)
          else none
        match dec with
        | none => none
        | some d =>
          match parseStringBody rest2 with
          | some (s, rem) => some (d :: s, rem)
          | none => none
    else
      match parseStringBody rest with
      | some (s, rem) => some (c :: s, rem)
      | none => none

/-- Numeric value of a decimal digit character. -/
def digitVal (c : Char) : Nat := c.toNat - 48

/-- Consume a run of decimal digits, accumulating their value. -/
def parseDigits : List Char → Nat → (Nat × List Char)
  | [], acc => (acc, [])
  | c :: rest, acc =>
    if c.isDigit then parseDigits rest (acc * 10 + digitVal c) else (acc, c :: rest)

/-- Parse an (integer) JSON number. -/
def parseNumber : List Char → Option (Int × List Char)
  | [] => none
  | c :: rest =>
    if c = '-' then
      match rest with
      | [] => none
      | d :: _ =>
        if d.isDigit then
          match parseDigits rest 0 with
          | (n, rem) => some (-(n : Int), rem)
        else none
    else if c.isDigit then
      match parseDigits (c :: rest) 0 with
      | (n, rem) => some ((n : Int), rem)
    else none

mutual

/-- Parse one JSON value, returning it with the unconsumed remainder. -/
def pvParse : Nat → List Char → Option (Json × List Char)
  | 0, _ => none
  | fuel + 1, l =>
    match skipWs l with
    | [] => none
    | c :: rest =>
      if c = '"' then
        match parseStringBody rest with
        | some (s, rem) => some (.str s, rem)
        | none => none
      else if c = '{' then
        match skipWs rest with
        | '}' :: rem => some (.obj [], rem)
        | _ =>
          match pvObjLoop fuel rest with
          | some (ms, rem) => some (.obj ms, rem)
          | none => none
      else if c = '[' then
        match skipWs rest with
        | ']' :: rem => some (.arr [], rem)
        | _ =>
          match pvArrLoop fuel rest with
          | some (vs, rem) => some (.arr vs, rem)
          | none => none
      else if c = 't' then
        match afterLit ("rue").toList rest with
        | some rem => some (.bool true, rem)
        | none => none
      else if c = 'f' then
        match afterLit ("alse").toList rest with
        | some rem => some (.bool false, rem)
        | none => none
      else if c = 'n' then
        match afterLit ("ull").toList rest with
        | some rem => some (.null, rem)
        | none => none
      else
        match parseNumber (c :: rest) with
        | some (n, rem) => some (.num n, rem)
        | none => none

/-- Parse the elements of a non-empty JSON array after the bracket. -/
def pvArrLoop : Nat → List Char → Option (List Json × List Char)
  | 0, _ => none
  | fuel + 1, l =>
    match pvParse fuel l with
    | none => none
    | some (v, rem) =>
      match skipWs rem with
      | ',' :: rem2 =>
        match pvArrLoop fuel rem2 with
        | some (vs, rem3) => some (v :: vs, rem3)
        | none => none
      | ']' :: rem2 => some ([v], rem2)
      | _ => none

/-- Parse the members of a non-empty JSON object after the brace. -/
def pvObjLoop : Nat → List Char → Option (List (List Char × Json) × List Char)
  | 0, _ => none
  | fuel + 1, l =>
    match skipWs l with
    | '"' :: rest =>
      match parseStringBody rest with
      | none => none
      | some (k, rem) =>
        match skipWs rem with
        | ':' :: rem2 =>
          match pvParse fuel rem2 with
          | none => none
          | some (v, rem3) =>
            match skipWs rem3 with
            | ',' :: rem4 =>
              match pvObjLoop fuel rem4 with
              | some (ms, rem5) => some ((k, v) :: ms, rem5)
              | none => none
            | '}' :: rem4 => some ([(k, v)], rem4)
            | _ => none
        | _ => none
    | _ => none

end

/-- Model of Python `json.loads`: parse one value and require only
whitespace to remain, else fail (Python raises `JSONDecodeError`,
surfaced here as `none`). -/
def pyJsonLoads (l : List Char) : Option Json :=
  match pvParse (2 * l.length + 2) l with
  | some (v, rem) => if skipWs rem = [] then some v else none
  | none => none

/-! Grading client (`call_llm` in `llm_service.py`).  The HTTP exchange is
abstracted as an oracle: either the `requests` call raised one of the
`RequestException`s the code catches (timeout, connection failure, or a
non-2xx status surfaced by `raise_for_status`), or it produced a parsed
JSON response body.  Exceptions that escape the function (those outside
`RequestException`, such as `KeyError`/`TypeError` from a malformed
`choices` structure) are modelled as `Except.error`. -/

inductive HttpResult where
  | transportError
  | ok (body : Json)

/-- Fallback string returned by `call_llm` on a transport failure. -/
def connectFallback : List Char :=
  ("\x7b\"is_correct\": false, \"explanation\": \"\x53orry, I was unable to connect to the evaluation service.\"\x7d").toList

/-- Fallback string returned by `call_llm` when the response body lacks a
usable `choices` field. -/
def unexpectedFallback : List Char :=
  ("\x7b\"is_correct\": false, \"explanation\": \"\x53orry, I received an unexpected response from the AI.\"\x7d").toList

/-- Key string `choices`. -/
def choicesKey : List Char := ("choices").toList

/-- Key string `message`. -/
def messageKey : List Char := ("message").toList

/-- Key string `content`. -/
def contentKey : List Char := ("content").toList

/-- Substring containment of `pat` in the second list. -/
def hasSub (pat : List Char) : List Char → Bool
  | [] => beginsWith pat []
  | c :: rest => beginsWith pat (c :: rest) || hasSub pat rest

/-- Python `key in value` for a parsed JSON value: membership of a string
key in a dict, membership of the string among list elements (string
elements only can compare equal), substring containment in a string, and
a `TypeError` otherwise. -/
def pyContainsStr (j : Json) (key : List Char) : Except Unit Bool :=
  match j with
  | .obj kvs => .ok (kvs.any (fun kv => kv.1 = key))
  | .arr xs => .ok (xs.any (fun v => match v with | .str s => s = key | _ => false))
  | .str s => .ok (hasSub key s)
  | _ => .error ()

/-- Python `value[key]` for a string key: dict lookup (raising `KeyError`
when absent) and a `TypeError` on any non-dict. -/
def pySubscrStr (j : Json) (key : List Char) : Except Unit Json :=
  match j with
  | .obj kvs =>
    match lookupLast kvs key with
    | some v => .ok v
    | none => .error ()
  | _ => .error ()

/-- Python `value[i]` for a nonnegative integer index: list indexing
(raising `IndexError` out of range), string indexing, and a `TypeError`
on other values. -/
def pySubscrNat (j : Json) (i : Nat) : Except Unit Json :=
  match j with
  | .arr xs =>
    match xs.get? i with
    | some v => .ok v
    | none => .error ()
  | .str s =>
    match s.get? i with
    | some c => .ok (.str [c])
    | none => .error ()
  | _ => .error ()

/-- Embedding of `call_llm` from `llm_service.py`: a transport failure is
caught and becomes the connectivity fallback string; a body whose
`choices` membership test fails is the unexpected-format fallback; a
well-formed body has its first choice's message content run through
`_parse_response`; any other shape raises an exception the function does
not catch (all its mutations of interest happen in the caller). -/
def call_llm (r : HttpResult) : Except Unit (List Char) :=
  match r with
  | .transportError => .ok connectFallback
  | .ok body =>
    match pyContainsStr body choicesKey with
    | .error e => .error e
    | .ok cb =>
      if cb then
        match pySubscrStr body choicesKey with
        | .error e => .error e
        | .ok choices =>
          if pyTruthy choices then
            match pySubscrStr body choicesKey with
            | .error e => .error e
            | .ok choices2 =>
              match pySubscrNat choices2 0 with
              | .error e => .error e
              | .ok c0 =>
                match pySubscrStr c0 messageKey with
                | .error e => .error e
                | .ok msg =>
                  match pySubscrStr msg contentKey with
                  | .error e => .error e
                  | .ok content =>
                    match content with
                    | .str s => .ok (_parse_response s)
                    | _ => .error ()
          else .ok unexpectedFallback
      else .ok unexpectedFallback

/-! Interview agent (`agent.py`). -/

/-- A question of the repository, per the repository format of the spec:
an object with `question_text` and `correct_formula` string fields. -/
structure Question where
  question_text : List Char
  correct_formula : List Char
deriving DecidableEq

/-- Role tag of a transcript turn. -/
inductive Role where
  | assistant
  | user
deriving DecidableEq

/-- One transcript entry, as appended to `self.history`.  The content is
a JSON value because the code stores the raw `explanation` field of the
parsed verdict, which need not be a string. -/
structure Turn where
  role : Role
  content : Json

/-- The interview phase tag held in `self.state`. -/
inductive Phase where
  | INTRODUCTION
  | ASKING_QUESTION
  | EVALUATING
  | CONCLUSION
deriving DecidableEq

/-- Mutable state of `ExcelInterviewerAgent`.  The field `llmCalls`
instruments the number of `call_llm` invocations made so far (the
grading call count of the spec); it mirrors no Python attribute and no
operation branches on it. -/
structure AgentState where
  state : Phase
  history : List Turn
  interview_playlist : List Question
  current_question_index : Nat
  attempts_for_current_question : Nat
  llmCalls : Nat

/-- The dictionary `process_user_response` returns: either the
out-of-turn redirect (role and content only) or the verdict shape with
`is_correct` and `attempts`. -/
inductive Resp where
  | redirect (content : List Char)
  | verdict (content : Json) (is_correct : Json) (attempts : Nat)

/-- Apostrophe character, used inside the fixed message strings. -/
def apoChar : Char := Char.ofNat 39

/-- The out-of-turn reply content of `process_user_response`. -/
def redirectMsg : List Char :=
  ("Let").toList ++ [apoChar] ++ ("s move to the next question.").toList

/-- Default feedback when the parsed verdict lacks an `explanation`. -/
def notedMsg : Json :=
  .str (("I").toList ++ [apoChar] ++ ("ve noted that.").toList)

/-- Feedback used when the verdict string fails to parse as JSON. -/
def evalErrMsg : List Char :=
  ("An error occurred during evaluation. Let").toList ++ [apoChar] ++ ("s proceed.").toList

/-- Key string `explanation`. -/
def explanationKey : List Char := ("explanation").toList

/-- Key string `is_correct`. -/
def isCorrectKey : List Char := ("is_correct").toList

/-- The verdict-decoding block of `process_user_response` (lines
103-109 of `agent.py`): `json.loads` failure is caught and yields the
error feedback with `is_correct = False`; a parsed object is read with
`dict.get` and the documented defaults; any other parsed value makes the
`.get` attribute access raise an `AttributeError`, which the
`except (json.JSONDecodeError, TypeError)` clause does not catch. -/
def evalVerdict (s : List Char) : Except Unit (Json × Json) :=
  match pyJsonLoads s with
  | none => .ok (.str evalErrMsg, .bool false)
  | some (.obj kvs) =>
    .ok (dictGet kvs explanationKey notedMsg, dictGet kvs isCorrectKey (.bool false))
  | some _ => .error ()

/-- The fixed farewell produced by `get_conclusion_prompt`. -/
def conclusionMsg : List Char :=
  ("That was the last question! Thank you for completing the interview. Generating your performance summary now...").toList

/-- Prefix of the summary turn appended by `conclude_interview`. -/
def summaryPrefix : List Char := ("### Performance Summary\n\n").toList

/-- The question announcement string built by `get_next_question`. -/
def questionHeader (i n : Nat) (qt : List Char) : List Char :=
  ("**Question ").toList ++ Nat.toDigits 10 (i + 1) ++ (" of ").toList ++
    Nat.toDigits 10 n ++ (":** ").toList ++ qt

/-- Embedding of `conclude_interview`: set the phase to `CONCLUSION`,
append the farewell turn, then request the summary; a raise from the
summary call propagates with the farewell already appended. -/
def conclude_interview (st : AgentState) (r : HttpResult) : Except AgentState AgentState :=
  let st1 : AgentState :=
    { st with state := .CONCLUSION,
              history := st.history ++ [⟨.assistant, .str conclusionMsg⟩] }
  let st2 : AgentState := { st1 with llmCalls := st1.llmCalls + 1 }
  match call_llm r with
  | .error _ => .error st2
  | .ok summary_report =>
    .ok { st2 with
          history := st2.history ++ [⟨.assistant, .str (summaryPrefix ++ summary_report)⟩] }

/-- Embedding of `get_next_question`: conclude when the playlist is
exhausted, otherwise reset the attempt counter, announce the question
and await the answer in phase `EVALUATING`. -/
def get_next_question (st : AgentState) (r : HttpResult) : Except AgentState AgentState :=
  if h : st.current_question_index < st.interview_playlist.length then
    let question := st.interview_playlist.get ⟨st.current_question_index, h⟩
    .ok { st with
          attempts_for_current_question := 0,
          history := st.history ++
            [⟨.assistant, .str (questionHeader st.current_question_index
              st.interview_playlist.length question.question_text)⟩],
          state := .EVALUATING }
  else
    conclude_interview st r

/-- Embedding of `start_interview`: enter `ASKING_QUESTION`, then
immediately fetch the next question. -/
def start_interview (st : AgentState) (r : HttpResult) : Except AgentState AgentState :=
  get_next_question { st with state := .ASKING_QUESTION } r

/-- Embedding of `process_user_response`.  The user turn is appended
before the phase guard; out of phase `EVALUATING` the redirect is
returned with no further change.  In phase `EVALUATING` the current
question is fetched (an out-of-range index raises `IndexError` there,
before the attempt counter moves), the attempt counter is incremented,
the grader is called, the verdict is decoded, the feedback turn is
appended, and the playlist index advances exactly when the verdict is
truthy or the attempt counter has reached 2. -/
def process_user_response (st : AgentState) (user_input : List Char) (r : HttpResult) :
    Except AgentState (AgentState × Resp) :=
  let st0 : AgentState := { st with history := st.history ++ [⟨.user, .str user_input⟩] }
  if st0.state ≠ .EVALUATING then .ok (st0, .redirect redirectMsg)
  else
    match st0.interview_playlist.get? st0.current_question_index with
    | none => .error st0
    | some _current_q =>
      let st1 : AgentState :=
        { st0 with attempts_for_current_question := st0.attempts_for_current_question + 1 }
      let st2 : AgentState := { st1 with llmCalls := st1.llmCalls + 1 }
      match call_llm r with
      | .error _ => .error st2
      | .ok llm_response_str =>
        match evalVerdict llm_response_str with
        | .error _ => .error st2
        | .ok (feedback, is_correct) =>
          let st3 : AgentState := { st2 with history := st2.history ++ [⟨.assistant, feedback⟩] }
          let st4 : AgentState :=
            if pyTruthy is_correct || st3.attempts_for_current_question ≥ 2 then
              { st3 with current_question_index := st3.current_question_index + 1 }
            else st3
          .ok (st4, .verdict feedback is_correct st3.attempts_for_current_question)

/-- State of the agent right after `__init__` for a given playlist (the
playlist itself is produced by `_prepare_interview_playlist`). -/
def initState (playlist : List Question) : AgentState :=
  { state := .INTRODUCTION, history := [], interview_playlist := playlist,
    current_question_index := 0, attempts_for_current_question := 0, llmCalls := 0 }

/-- Post-state of an operation returning only a state, whether it
returned normally or raised (Python mutations persist past a raise). -/
def runStateU : Except AgentState AgentState → AgentState
  | .ok s => s
  | .error s => s

/-- Post-state of `process_user_response`, normal or raising. -/
def runStateP : Except AgentState (AgentState × Resp) → AgentState
  | .ok p => p.1
  | .error s => s

/-- Predicate passing exactly on a raising outcome of
`process_user_response`. -/
def raisesP : Except AgentState (AgentState × Resp) → Bool
  | .ok _ => false
  | .error _ => true

/-- States reachable from initialization through arbitrary sequences of
the session-facing operations, with arbitrary grading-client results. -/
inductive Reach (playlist : List Question) : AgentState → Prop where
  | init : Reach playlist (initState playlist)
  | start (s : AgentState) (r : HttpResult) :
      Reach playlist s → Reach playlist (runStateU (start_interview s r))
  | advance (s : AgentState) (r : HttpResult) :
      Reach playlist s → Reach playlist (runStateU (get_next_question s r))
  | submit (s : AgentState) (input : List Char) (r : HttpResult) :
      Reach playlist s → Reach playlist (runStateP (process_user_response s input r))

/-- Whether the presentation shell switches to the Next-question button
after a submission, per `app.py` line 81: the response carries a truthy
`is_correct` or an attempt count of at least 2 (the redirect dict has
neither key, so both lookups default to falsy values). -/
def respAdvances : Resp → Bool
  | .redirect _ => false
  | .verdict _ ic n => pyTruthy ic || n ≥ 2

/-- States reachable when the presentation shell of `app.py` drives the
agent and every grading call made by a submission returns normally:
submissions happen only while the Next-question button is hidden, and
the button state follows the returned verdict.  The normal-return
hypothesis on submissions is essential and is not enforced by the shell
itself: a submission that raises after incrementing the attempt counter
leaves the button hidden, and further submissions can then exceed the
attempt bound proved below.  The boolean is `show_next_btn`. -/
inductive UIReach (playlist : List Question) : AgentState → Bool → Prop where
  | init : UIReach playlist (initState playlist) false
  | start (s : AgentState) (r : HttpResult) :
      UIReach playlist s false → UIReach playlist (runStateU (start_interview s r)) false
  | next (s : AgentState) (r : HttpResult) :
      UIReach playlist s true → UIReach playlist (runStateU (get_next_question s r)) false
  | submit (s s1 : AgentState) (input : List Char) (r : HttpResult) (rsp : Resp) :
      UIReach playlist s false →
      process_user_response s input r = .ok (s1, rsp) →
      UIReach playlist s1 (respAdvances rsp)

/-! Repository loading and playlist construction. -/

/-- Embedding of `_load_questions`: the file system outcome is `none`
for an absent file (the raised `FileNotFoundError` is caught and the
three empty difficulty lists are returned) and `some content` for a
present file, whose content `json.load` parses; a parse failure raises
`JSONDecodeError`, which the `except FileNotFoundError` clause does not
catch. -/
def _load_questions (file : Option (List Char)) : Except Unit Json :=
  match file with
  | none =>
    .ok (.obj [(("easy").toList, .arr []), (("medium").toList, .arr []),
               (("hard").toList, .arr [])])
  | some content =>
    match pyJsonLoads content with
    | some j => .ok j
    | none => .error ()

/-- The loaded question bank as a repository map, as
`_prepare_interview_playlist` consults it: `difficulty in
self.all_questions` then `self.all_questions[difficulty]`.  Only a dict
bank with list entries yields a pool. -/
def bankLookup (bank : Json) (difficulty : List Char) : Option (List Json) :=
  match bank with
  | .obj kvs =>
    match lookupLast kvs difficulty with
    | some (.arr xs) => some xs
    | _ => none
  | _ => none

/-- Embedding of `_prepare_interview_playlist`, parameterized over the
ambient randomness: `sample pool k` stands for `random.sample(pool, k)`
and `shuffle` for `random.shuffle`; the element type is abstract since
the builder never inspects a question.  For each configured difficulty
present in the repository it draws `min(count, available)` items and
extends the playlist, then shuffles the concatenation. -/
def _prepare_interview_playlist {α : Type} (sample : List α → Nat → List α)
    (shuffle : List α → List α)
    (config : List (List Char × Nat)) (repo : List Char → Option (List α)) : List α :=
  shuffle (config.foldl
    (fun playlist dc =>
      match repo dc.1 with
      | some available_questions =>
        playlist ++ sample available_questions (min dc.2 available_questions.length)
      | none => playlist)
    [])

/-- The block drawn for one configuration entry. -/
def drawFor {α : Type} (sample : List α → Nat → List α)
    (repo : List Char → Option (List α)) (dc : List Char × Nat) : List α :=
  match repo dc.1 with
  | some pool => sample pool (min dc.2 pool.length)
  | none => []

/-- The bank returned by `_load_questions` for an absent file. -/
def emptyBankJ : Json :=
  .obj [(("easy").toList, .arr []), (("medium").toList, .arr []),
        (("hard").toList, .arr [])]

/-- Safety of a parsed verdict string inside `process_user_response`: its
JSON decoding either fails (the caught `JSONDecodeError` path) or yields
an object (the `dict.get` path); any other decoded value raises. -/
def verdictSafeStr (s : List Char) : Bool :=
  match pyJsonLoads s with
  | some (.obj _) => true
  | some _ => false
  | none => true

/-- A grading-client outcome is safe when `call_llm` returns without
raising and its string is safe for the verdict decoder. -/
def llmOutcomeSafe (r : HttpResult) : Bool :=
  match call_llm r with
  | .error _ => false
  | .ok s => verdictSafeStr s

/-- Predicate passing exactly on a raising repository-load outcome. -/
def raisesL : Except Unit Json → Bool
  | .ok _ => false
  | .error _ => true

/-- Sample question used by the concrete scenarios. -/
def qW : Question := ⟨("qt").toList, ("cf").toList⟩

/-- Response body carrying the given model output as its only choice. -/
def okBody (s : List Char) : Json :=
  .obj [(choicesKey, .arr [.obj [(messageKey, .obj [(contentKey, .str s)])]])]

/-- Grading outcome whose model output is the bare JSON literal null. -/
def nullResult : HttpResult := .ok (okBody (("null").toList))

/-- Grading outcome judging the answer incorrect. -/
def wrongResult : HttpResult :=
  .ok (okBody (("\x7b\"is_correct\": false, \"explanation\": \"no\"\x7d").toList))

/-- Grading outcome judging the answer correct. -/
def correctResult : HttpResult :=
  .ok (okBody (("\x7b\"is_correct\": true, \"explanation\": \"yes\"\x7d").toList))

/-- A candidate answer used by the concrete scenarios. -/
def aIn : List Char := ("ans").toList

/-- State right after starting a one-question interview. -/
def oneQStarted : AgentState :=
  runStateU (start_interview (initState [qW]) .transportError)

/-- State right after starting a two-question interview. -/
def twoQStarted : AgentState :=
  runStateU (start_interview (initState [qW, qW]) .transportError)

/-- State reached by three consecutive incorrect submissions on a
two-question playlist. -/
def threeWrong : AgentState :=
  runStateP (process_user_response (runStateP (process_user_response (runStateP
    (process_user_response twoQStarted aIn wrongResult)) aIn wrongResult)) aIn wrongResult)

/-- Concluded state of an empty-playlist interview. -/
def emptyConcluded : AgentState :=
  runStateU (start_interview (initState []) .transportError)

/-- Post-state of a correct first-attempt submission on `oneQStarted`. -/
def oneQAfterCorrect : AgentState :=
  { state := .EVALUATING,
    history := oneQStarted.history ++
      [⟨.user, .str aIn⟩, ⟨.assistant, .str (("yes").toList)⟩],
    interview_playlist := [qW], current_question_index := 1,
    attempts_for_current_question := 1, llmCalls := 1 }

/-- A mid-interview state with one failed attempt already recorded. -/
def oneAttemptSt : AgentState :=
  { state := .EVALUATING, history := [], interview_playlist := [qW, qW],
    current_question_index := 0, attempts_for_current_question := 1, llmCalls := 0 }

/-- Post-state of a second incorrect submission on `oneAttemptSt`. -/
def oneAttemptPost : AgentState :=
  { state := .EVALUATING,
    history := [⟨.user, .str aIn⟩, ⟨.assistant, .str (("no").toList)⟩],
    interview_playlist := [qW, qW], current_question_index := 1,
    attempts_for_current_question := 2, llmCalls := 1 }

/-- Deterministic sampler drawing the first `k` elements of the pool, a
valid `random.sample` outcome. -/
def takeSample {α : Type} (pool : List α) (k : Nat) : List α := pool.take k

/-- The serialized object used by the round-trip scenarios. -/
def objText : List Char := ("\x7b\"a\":1\x7d").toList

/-- The JSON value `objText` denotes. -/
def objVal : Json := .obj [(("a").toList, .num 1)]

/-- Model output wrapping `objText` in a reasoning block and prose. -/
def fullW : List Char := ("deliberation</think> ok \x7b\"a\":1\x7d done").toList

/-! Helper lemmas about the string utilities. -/

theorem beginsWith_iff {p l : List Char} : beginsWith p l = true ↔ ∃ t, l = p ++ t := by
  induction p generalizing l with
  | nil => simp [beginsWith]
  | cons a as ih =>
    cases l with
    | nil => simp [beginsWith]
    | cons c cs =>
      simp only [beginsWith, Bool.and_eq_true, decide_eq_true_eq, ih]
      constructor
      · rintro ⟨rfl, t, rfl⟩
        exact ⟨t, rfl⟩
      · rintro ⟨t, ht⟩
        cases ht
        exact ⟨rfl, t, rfl⟩

theorem hasMarker_cons (c : Char) (cs : List Char) :
    hasMarker (c :: cs) = (beginsWith thinkMarker (c :: cs) || hasMarker cs) := rfl

theorem hasMarker_of_decomp {l p q : List Char} (h : l = p ++ thinkMarker ++ q) :
    hasMarker l = true := by
  induction p generalizing l with
  | nil =>
    simp only [List.nil_append] at h
    cases h
    cases hm : thinkMarker ++ q with
    | nil => simp [thinkMarker] at hm
    | cons c cs =>
      rw [hasMarker_cons, ← hm]
      have hb : beginsWith thinkMarker (thinkMarker ++ q) = true :=
        beginsWith_iff.mpr ⟨q, rfl⟩
      simp [hb]
  | cons a as ih =>
    cases h
    simp only [List.cons_append]
    rw [hasMarker_cons]
    have hr : hasMarker (as ++ thinkMarker ++ q) = true := ih rfl
    simp only [List.append_assoc] at hr ⊢
    simp [hr]

theorem firstIdxFrom_some {p : Char → Bool} {l : List Char} {i : Nat}
    (h : firstIdxFrom p l = some i) :
    ∃ x, l.get? i = some x ∧ p x = true ∧
      ∀ j, j < i → ∀ y, l.get? j = some y → p y = false := by
  induction l generalizing i with
  | nil => simp [firstIdxFrom] at h
  | cons c rest ih =>
    rw [firstIdxFrom] at h
    by_cases hp : p c
    · simp only [hp, if_pos] at h
      cases h
      exact ⟨c, rfl, hp, fun j hj => by omega⟩
    · simp only [hp, if_neg, Bool.false_eq_true, not_false_iff, Option.map_eq_some'] at h
      obtain ⟨i', hi', rfl⟩ := h
      obtain ⟨x, hx, hpx, hmin⟩ := ih hi'
      refine ⟨x, by simpa using hx, hpx, ?_⟩
      intro j hj y hy
      cases j with
      | zero =>
        simp only [List.get?] at hy
        cases hy
        simpa using hp
      | succ j' =>
        simp only [List.get?] at hy
        exact hmin j' (by omega) y hy

theorem firstIdxFrom_none {p : Char → Bool} {l : List Char}
    (h : firstIdxFrom p l = none) :
    ∀ j y, l.get? j = some y → p y = false := by
  induction l with
  | nil => intro j y hy; simp at hy
  | cons c rest ih =>
    rw [firstIdxFrom] at h
    by_cases hp : p c
    · simp [hp] at h
    · simp only [hp, if_neg, Bool.false_eq_true, not_false_iff, Option.map_eq_none'] at h
      intro j y hy
      cases j with
      | zero => simp only [List.get?] at hy; cases hy; simpa using hp
      | succ j' => exact ih h j' y hy

theorem firstIdxFrom_append {p : Char → Bool} {a : List Char} {x : Char} {rest : List Char}
    (ha : ∀ c ∈ a, p c = false) (hx : p x = true) :
    firstIdxFrom p (a ++ x :: rest) = some a.length := by
  induction a with
  | nil => simp [firstIdxFrom, hx]
  | cons c cs ih =>
    have hc : p c = false := ha c (by simp)
    rw [List.cons_append, firstIdxFrom]
    simp only [hc, Bool.false_eq_true, if_neg, not_false_iff]
    rw [ih (fun d hd => ha d (by simp [hd]))]
    simp

theorem mem_take_get? {l : List Char} {i : Nat} {c : Char} (h : c ∈ l.take i) :
    ∃ j, j < i ∧ l.get? j = some c := by
  obtain ⟨n, hn⟩ := List.mem_iff_get?.mp h
  have hlt : n < (l.take i).length := by
    by_contra hge
    rw [List.get?_eq_none.mpr (by omega)] at hn
    cases hn
  have hni : n < i := lt_of_lt_of_le hlt (by simpa using List.length_take_le i l)
  refine ⟨n, hni, ?_⟩
  rwa [List.get?_take hni] at hn

theorem mem_drop_get? {l : List Char} {i : Nat} {c : Char} (h : c ∈ l.drop i) :
    ∃ j, i ≤ j ∧ l.get? j = some c := by
  obtain ⟨n, hn⟩ := List.mem_iff_get?.mp h
  rw [List.get?_drop] at hn
  exact ⟨i + n, by omega, hn⟩

theorem afterMarker_cons (c : Char) (cs : List Char) :
    afterMarker (c :: cs) =
      (if beginsWith thinkMarker (c :: cs) = true then (c :: cs).drop thinkMarker.length
       else afterMarker cs) := rfl

theorem marker_decomp {l : List Char} (h : hasMarker l = true) :
    ∃ pre, l = pre ++ thinkMarker ++ afterMarker l ∧
      ∀ p q, l = p ++ thinkMarker ++ q → pre.length ≤ p.length := by
  induction l with
  | nil => simp [hasMarker] at h
  | cons c cs ih =>
    by_cases hb : beginsWith thinkMarker (c :: cs) = true
    · obtain ⟨t, ht⟩ := beginsWith_iff.mp hb
      refine ⟨[], ?_, fun p q _ => by simp⟩
      rw [afterMarker_cons, if_pos hb, ht, List.drop_left]
      simp
    · rw [hasMarker_cons] at h
      have hcs : hasMarker cs = true := by
        rcases Bool.or_eq_true_iff.mp h with h1 | h1
        · exact absurd h1 hb
        · exact h1
      obtain ⟨pre', hdec, hmin⟩ := ih hcs
      refine ⟨c :: pre', ?_, ?_⟩
      · rw [afterMarker_cons, if_neg hb]
        simpa using hdec
      · intro p q hpq
        cases p with
        | nil =>
          exfalso
          apply hb
          exact beginsWith_iff.mpr ⟨q, by simpa using hpq⟩
        | cons a as =>
          simp only [List.cons_append, List.cons.injEq] at hpq
          have := hmin as q hpq.2
          simp only [List.length_cons]
          omega

/-! Helper lemmas about the state machine operations. -/

theorem conclude_fields (st : AgentState) (r : HttpResult) :
    (runStateU (conclude_interview st r)).state = .CONCLUSION ∧
    (runStateU (conclude_interview st r)).current_question_index = st.current_question_index ∧
    (runStateU (conclude_interview st r)).attempts_for_current_question =
      st.attempts_for_current_question ∧
    (runStateU (conclude_interview st r)).interview_playlist = st.interview_playlist := by
  cases hc : call_llm r <;> simp [conclude_interview, runStateU, hc]

theorem get_next_of_lt {st : AgentState} (r : HttpResult)
    (h : st.current_question_index < st.interview_playlist.length) :
    get_next_question st r = .ok { st with
      attempts_for_current_question := 0,
      history := st.history ++ [⟨.assistant, .str (questionHeader st.current_question_index
        st.interview_playlist.length
        (st.interview_playlist.get ⟨st.current_question_index, h⟩).question_text)⟩],
      state := .EVALUATING } := by
  unfold get_next_question
  rw [dif_pos h]

theorem get_next_of_ge {st : AgentState} (r : HttpResult)
    (h : ¬ st.current_question_index < st.interview_playlist.length) :
    get_next_question st r = conclude_interview st r := by
  unfold get_next_question
  rw [dif_neg h]

theorem process_not_eval {st : AgentState} (input : List Char) (r : HttpResult)
    (h : st.state ≠ .EVALUATING) :
    process_user_response st input r =
      .ok ({ st with history := st.history ++ [⟨.user, .str input⟩] }, .redirect redirectMsg) := by
  unfold process_user_response
  rw [if_pos]
  exact h

theorem process_state_eq (st : AgentState) (input : List Char) (r : HttpResult) :
    (runStateP (process_user_response st input r)).state = st.state := by
  simp only [process_user_response]
  split
  · rfl
  · split
    · rfl
    · split
      · rfl
      · split
        · rfl
        · split <;> rfl

theorem process_ok_verdict {st : AgentState} {input : List Char} {r : HttpResult}
    {s1 : AgentState} {fb ic : Json} {n : Nat}
    (h : process_user_response st input r = .ok (s1, .verdict fb ic n)) :
    st.state = .EVALUATING ∧ n = st.attempts_for_current_question + 1 ∧
    s1.attempts_for_current_question = n ∧ s1.state = .EVALUATING ∧
    s1.interview_playlist = st.interview_playlist ∧
    s1.llmCalls = st.llmCalls + 1 ∧
    s1.current_question_index =
      (if (pyTruthy ic || decide (2 ≤ n)) = true then st.current_question_index + 1
       else st.current_question_index) := by
  simp only [process_user_response] at h
  split at h
  · exact absurd (congrArg Prod.snd (Except.ok.inj h)) (by simp)
  · rename_i hne
    have hs : st.state = .EVALUATING := not_not.mp hne
    split at h
    · cases h
    · split at h
      · cases h
      · split at h
        · cases h
        · rename_i llmStr hllm vOut hv
          rw [Except.ok.injEq, Prod.mk.injEq] at h
          obtain ⟨h1, h2⟩ := h
          rw [Resp.verdict.injEq] at h2
          obtain ⟨rfl, rfl, rfl⟩ := h2
          subst h1
          refine ⟨hs, rfl, ?_, ?_, ?_, ?_, ?_⟩ <;>
            (split <;> simp [hs])

theorem process_ok_redirect {st : AgentState} {input : List Char} {r : HttpResult}
    {s1 : AgentState} {c : List Char}
    (h : process_user_response st input r = .ok (s1, .redirect c)) :
    st.state ≠ .EVALUATING ∧
    s1 = { st with history := st.history ++ [⟨.user, .str input⟩] } := by
  simp only [process_user_response] at h
  split at h
  · rename_i hne
    rw [Except.ok.injEq, Prod.mk.injEq] at h
    exact ⟨hne, h.1.symm⟩
  · split at h
    · cases h
    · split at h
      · cases h
      · split at h
        · cases h
        · rw [Except.ok.injEq, Prod.mk.injEq] at h
          exact absurd h.2 (by simp)

theorem get_next_post (st : AgentState) (r : HttpResult) :
    ((runStateU (get_next_question st r)).state = .EVALUATING ∧
     st.current_question_index < st.interview_playlist.length ∧
     (runStateU (get_next_question st r)).attempts_for_current_question = 0)
    ∨ ((runStateU (get_next_question st r)).state = .CONCLUSION ∧
       st.interview_playlist.length ≤ st.current_question_index ∧
       (runStateU (get_next_question st r)).attempts_for_current_question =
         st.attempts_for_current_question) := by
  by_cases hlt : st.current_question_index < st.interview_playlist.length
  · left
    rw [get_next_of_lt r hlt]
    exact ⟨rfl, hlt, rfl⟩
  · right
    rw [get_next_of_ge r hlt]
    exact ⟨(conclude_fields st r).1, by omega, (conclude_fields st r).2.2.1⟩

theorem get_next_frame (st : AgentState) (r : HttpResult) :
    (runStateU (get_next_question st r)).interview_playlist = st.interview_playlist ∧
    (runStateU (get_next_question st r)).current_question_index = st.current_question_index := by
  by_cases hlt : st.current_question_index < st.interview_playlist.length
  · rw [get_next_of_lt r hlt]
    exact ⟨rfl, rfl⟩
  · rw [get_next_of_ge r hlt]
    exact ⟨(conclude_fields st r).2.2.2, (conclude_fields st r).2.1⟩

theorem reach_conclusion_exhausted {pl : List Question} {s : AgentState} (h : Reach pl s) :
    s.state = .CONCLUSION → s.interview_playlist.length ≤ s.current_question_index := by
  induction h with
  | init => intro hc; simp [initState] at hc
  | start s r _ _ =>
    intro hc
    simp only [start_interview] at hc ⊢
    rcases get_next_post { s with state := .ASKING_QUESTION } r with ⟨hE, _, _⟩ | ⟨_, hge, _⟩
    · rw [hE] at hc; cases hc
    · rw [(get_next_frame { s with state := .ASKING_QUESTION } r).1,
        (get_next_frame { s with state := .ASKING_QUESTION } r).2]
      exact hge
  | advance s r _ _ =>
    intro hc
    rcases get_next_post s r with ⟨hE, _, _⟩ | ⟨_, hge, _⟩
    · rw [hE] at hc; cases hc
    · rw [(get_next_frame s r).1, (get_next_frame s r).2]
      exact hge
  | submit s input r _ ih =>
    intro hc
    have hsc : s.state = .CONCLUSION := (process_state_eq s input r).symm.trans hc
    have hne : s.state ≠ .EVALUATING := by rw [hsc]; simp
    rw [process_not_eval input r hne]
    exact ih hsc

theorem uireach_attempts {pl : List Question} {s : AgentState} {btn : Bool}
    (h : UIReach pl s btn) :
    s.state = .EVALUATING →
    s.attempts_for_current_question ≤ (if btn then 2 else 1) := by
  induction h with
  | init => intro hc; simp [initState] at hc
  | start s r _ _ =>
    intro hE
    simp only [start_interview] at hE ⊢
    rcases get_next_post { s with state := .ASKING_QUESTION } r with ⟨_, _, hatt⟩ | ⟨hC, _, _⟩
    · rw [hatt]; simp
    · rw [hC] at hE; cases hE
  | next s r _ _ =>
    intro hE
    rcases get_next_post s r with ⟨_, _, hatt⟩ | ⟨hC, _, _⟩
    · rw [hatt]; simp
    · rw [hC] at hE; cases hE
  | submit s s1 input r rsp _ hok ih =>
    intro hE
    cases rsp with
    | redirect c =>
      obtain ⟨hne, rfl⟩ := process_ok_redirect hok
      exact absurd hE hne
    | verdict fb ic n =>
      obtain ⟨hsE, hn, hs1att, _, _, _, _⟩ := process_ok_verdict hok
      have hprev : s.attempts_for_current_question ≤ 1 := by simpa using ih hsE
      rw [hs1att, hn]
      simp only [respAdvances]
      by_cases hb : (pyTruthy ic ||
          decide (s.attempts_for_current_question + 1 ≥ 2)) = true
      · rw [if_pos hb]
        omega
      · rw [if_neg hb]
        have h2 : ¬ s.attempts_for_current_question + 1 ≥ 2 := by
          intro hge
          exact hb (by simp [hge])
        omega

/-! Helper lemmas for the playlist builder. -/

theorem prepare_foldl {α : Type} (sample : List α → Nat → List α)
    (repo : List Char → Option (List α)) (config : List (List Char × Nat))
    (acc : List α) :
    config.foldl (fun playlist dc =>
      match repo dc.1 with
      | some available_questions =>
        playlist ++ sample available_questions (min dc.2 available_questions.length)
      | none => playlist) acc
    = acc ++ (config.map (drawFor sample repo)).join := by
  induction config generalizing acc with
  | nil => simp
  | cons dc rest ih =>
    rw [List.foldl_cons, ih]
    cases hdc : repo dc.1 <;> simp [drawFor, hdc]

theorem prepare_spec {α : Type} (sample : List α → Nat → List α) (shuffle : List α → List α)
    (config : List (List Char × Nat)) (repo : List Char → Option (List α))
    (hshuf : ∀ l : List α, (shuffle l).Perm l) :
    (_prepare_interview_playlist sample shuffle config repo).Perm
      ((config.map (drawFor sample repo)).join) := by
  unfold _prepare_interview_playlist
  rw [prepare_foldl]
  simpa using hshuf _

theorem prepare_all_empty {α : Type} (sample : List α → Nat → List α)
    (shuffle : List α → List α)
    (config : List (List Char × Nat)) (repo : List Char → Option (List α))
    (hlen : ∀ (pool : List α) k, k ≤ pool.length → (sample pool k).length = k)
    (hshuf : ∀ l : List α, (shuffle l).Perm l)
    (hrepo : ∀ d, repo d = none ∨ repo d = some []) :
    _prepare_interview_playlist sample shuffle config repo = [] := by
  have hjoin : (config.map (drawFor sample repo)).join = [] := by
    rw [List.join_eq_nil]
    intro l hl
    rw [List.mem_map] at hl
    obtain ⟨dc, _, rfl⟩ := hl
    rcases hrepo dc.1 with h | h
    · simp [drawFor, h]
    · simp only [drawFor, h, List.length_nil, Nat.min_zero]
      exact List.length_eq_zero.mp (hlen [] 0 (by simp))
  have hperm := prepare_spec sample shuffle config repo hshuf
  rw [hjoin] at hperm
  exact hperm.eq_nil

theorem emptyBank_lookup (d : List Char) :
    bankLookup emptyBankJ d = none ∨ bankLookup emptyBankJ d = some [] := by
  simp only [bankLookup, emptyBankJ, lookupLast]
  split_ifs <;> simp

/-! Helper lemmas for the extractor characterization. -/

theorem get?_lt {l : List Char} {i : Nat} {c : Char} (h : l.get? i = some c) :
    i < l.length := by
  rcases List.get?_eq_some.mp h with ⟨hlt, _⟩
  exact hlt

theorem rev_get? {l : List Char} {j : Nat} (hj : j < l.length) :
    l.reverse.get? (l.length - 1 - j) = l.get? j := by
  rw [List.get?_reverse]
  · congr 1
    omega
  · simpa using by omega

theorem head?_eq_get?_zero (l : List Char) : l.head? = l.get? 0 := by
  cases l <;> rfl

theorem extract_spec_core {rem : List Char} {i j : Nat}
    (hi : rem.get? i = some '{') (hmin : ∀ i', i' < i → rem.get? i' ≠ some '{')
    (hj : rem.get? j = some '}') (hmax : ∀ j', j < j' → rem.get? j' ≠ some '}')
    (hij : i < j) :
    rem = rem.take i ++ ((rem.drop i).take (j + 1 - i)) ++ rem.drop (j + 1) ∧
    (∀ c ∈ rem.take i, c ≠ '{') ∧ (∀ c ∈ rem.drop (j + 1), c ≠ '}') ∧
    ((rem.drop i).take (j + 1 - i)).head? = some '{' ∧
    ((rem.drop i).take (j + 1 - i)).getLast? = some '}' := by
  have hjlen : j < rem.length := get?_lt hj
  have hilen : i < rem.length := get?_lt hi
  refine ⟨?_, ?_, ?_, ?_, ?_⟩
  · have h1 : (rem.drop i).drop (j + 1 - i) = rem.drop (j + 1) := by
      rw [List.drop_drop]
      congr 1
      omega
    rw [List.append_assoc, ← h1, List.take_append_drop, List.take_append_drop]
  · intro c hc hcb
    obtain ⟨i', hi', hgi'⟩ := mem_take_get? hc
    exact hmin i' hi' (hcb ▸ hgi')
  · intro c hc hcb
    obtain ⟨j', hj', hgj'⟩ := mem_drop_get? hc
    exact hmax j' (by omega) (hcb ▸ hgj')
  · rw [head?_eq_get?_zero, List.get?_take (by omega), List.get?_drop]
    simpa using hi
  · have hlt : (rem.drop i).length = rem.length - i := List.length_drop i rem
    have hlen : ((rem.drop i).take (j + 1 - i)).length = j + 1 - i := by
      rw [List.length_take, hlt]
      omega
    rw [List.getLast?_eq_get?, hlen]
    rw [show j + 1 - i - 1 = j - i by omega]
    rw [List.get?_take (by omega), List.get?_drop]
    rw [show i + (j - i) = j by omega]
    exact hj

theorem parse_response_of_find {l : List Char} {i k : Nat}
    (hS : firstIdxFrom (fun x => x = '{') (cleanPart l) = some i)
    (hE : firstIdxFrom (fun x => x = '}') (cleanPart l).reverse = some k)
    (hij : i < (cleanPart l).length - 1 - k) :
    _parse_response l =
      ((cleanPart l).drop i).take ((cleanPart l).length - 1 - k + 1 - i) := by
  simp only [_parse_response, pyFind, pyRFind, hS, hE]
  rw [if_pos ⟨by omega, by omega, by exact_mod_cast hij⟩]
  simp

theorem parse_response_else {l : List Char}
    (hcond : ¬ (pyFind (cleanPart l) '{' ≠ -1 ∧ pyRFind (cleanPart l) '}' ≠ -1 ∧
        pyRFind (cleanPart l) '}' > pyFind (cleanPart l) '{')) :
    _parse_response l = cleanPart l := by
  simp only [_parse_response]
  rw [if_neg hcond]

theorem cleanPart_marker_spec (l : List Char) :
    (hasMarker l = false ∧ cleanPart l = pyStrip l)
    ∨ (∃ pre, l = pre ++ thinkMarker ++ afterMarker l ∧
        (∀ p q, l = p ++ thinkMarker ++ q → pre.length ≤ p.length) ∧
        cleanPart l = pyStrip (afterMarker l)) := by
  by_cases h : hasMarker l = true
  · right
    obtain ⟨pre, hdec, hmin⟩ := marker_decomp h
    exact ⟨pre, hdec, hmin, by simp [cleanPart, h]⟩
  · left
    have hf : hasMarker l = false := by simpa using h
    exact ⟨hf, by simp [cleanPart, hf]⟩

theorem extract_disjunction (l : List Char) :
    (∃ a t b, cleanPart l = a ++ t ++ b ∧ (∀ c ∈ a, c ≠ '{') ∧ (∀ c ∈ b, c ≠ '}') ∧
      t.head? = some '{' ∧ t.getLast? = some '}' ∧ _parse_response l = t)
    ∨ (_parse_response l = cleanPart l ∧
       ∀ i j, (cleanPart l).get? i = some '{' → (cleanPart l).get? j = some '}' → j < i) := by
  rcases hS : firstIdxFrom (fun x => x = '{') (cleanPart l) with _ | i
  case none =>
    right
    refine ⟨parse_response_else ?_, ?_⟩
    · rintro ⟨h1, -, -⟩
      exact h1 (by simp [pyFind, hS])
    · intro i j hgi _
      have hfalse := firstIdxFrom_none hS i '{' hgi
      simp at hfalse
  case some =>
    obtain ⟨x, hgi, hpi, hmini⟩ := firstIdxFrom_some hS
    have hxi : (cleanPart l).get? i = some '{' := by
      have hx : x = '{' := by simpa using hpi
      rwa [hx] at hgi
    have hminN : ∀ i', i' < i → (cleanPart l).get? i' ≠ some '{' := by
      intro i' hi' hgi'
      have := hmini i' hi' '{' hgi'
      simp at this
    rcases hE : firstIdxFrom (fun x => x = '}') (cleanPart l).reverse with _ | k
    case none =>
      right
      refine ⟨parse_response_else ?_, ?_⟩
      · rintro ⟨-, h2, -⟩
        exact h2 (by simp [pyRFind, hE])
      · intro i' j hgi' hgj
        have hjlen : j < (cleanPart l).length := get?_lt hgj
        have hfalse := firstIdxFrom_none hE ((cleanPart l).length - 1 - j) '}'
          (by rw [rev_get? hjlen]; exact hgj)
        simp at hfalse
    case some =>
      obtain ⟨y, hgk, hpk, hmink⟩ := firstIdxFrom_some hE
      have hklen : k < (cleanPart l).length := by
        have := get?_lt hgk
        simpa using this
      have hyk : (cleanPart l).get? ((cleanPart l).length - 1 - k) = some '}' := by
        have hy : y = '}' := by simpa using hpk
        have hjlt : (cleanPart l).length - 1 - k < (cleanPart l).length := by omega
        have hrev := rev_get? hjlt
        rw [show (cleanPart l).length - 1 - ((cleanPart l).length - 1 - k) = k
          by omega] at hrev
        rw [← hrev, hgk, hy]
      have hmaxj : ∀ j', (cleanPart l).length - 1 - k < j' →
          (cleanPart l).get? j' ≠ some '}' := by
        intro j' hj' hgj'
        have hj'len : j' < (cleanPart l).length := get?_lt hgj'
        have hfalse := hmink ((cleanPart l).length - 1 - j') (by omega) '}'
          (by rw [rev_get? hj'len]; exact hgj')
        simp at hfalse
      by_cases hij : i < (cleanPart l).length - 1 - k
      · left
        obtain ⟨hdec, ha, hb, hh, hl2⟩ := extract_spec_core hxi hminN hyk hmaxj hij
        exact ⟨_, _, _, hdec, ha, hb, hh, hl2, parse_response_of_find hS hE hij⟩
      · right
        refine ⟨parse_response_else ?_, ?_⟩
        · rintro ⟨-, -, h3⟩
          apply hij
          have he : pyRFind (cleanPart l) '}' =
              (((cleanPart l).length - 1 - k : Nat) : Int) := by simp [pyRFind, hE]
          have hf : pyFind (cleanPart l) '{' = (i : Int) := by simp [pyFind, hS]
          rw [he, hf] at h3
          exact_mod_cast h3
        · intro i' j' hgi' hgj'
          have hii' : i ≤ i' := by
            by_contra hlt
            exact hminN i' (by omega) hgi'
          have hj'k : j' ≤ (cleanPart l).length - 1 - k := by
            by_contra hgt
            exact hmaxj j' (by omega) hgj'
          have hne : j' ≠ i' := by
            intro he
            rw [he] at hgj'
            have := hgi'.symm.trans hgj'
            simp at this
          omega

theorem extract_of_decomp {full pre s suf : List Char}
    (hclean : cleanPart full = pre ++ s ++ suf)
    (hpre : ∀ c ∈ pre, c ≠ '{') (hsuf : ∀ c ∈ suf, c ≠ '}')
    (hh : s.head? = some '{') (hl : s.getLast? = some '}') :
    _parse_response full = s := by
  cases s with
  | nil => simp at hh
  | cons s0 stail =>
  have hs0 : s0 = '{' := by simpa using hh
  subst hs0
  have hst : stail ≠ [] := by
    intro h
    subst h
    have hbad : ('{' : Char) = '}' := by simpa using hl
    exact absurd hbad (by decide)
  have hS : firstIdxFrom (fun x => x = '{') (cleanPart full) = some pre.length := by
    rw [hclean]
    rw [show pre ++ ('{' :: stail) ++ suf = pre ++ '{' :: (stail ++ suf) by simp]
    apply firstIdxFrom_append
    · intro c hc
      simpa using hpre c hc
    · simp
  have hsrh : (('{' :: stail).reverse).head? = some '}' := by
    rw [List.head?_reverse]
    exact hl
  cases hsr : ('{' :: stail).reverse with
  | nil => rw [hsr] at hsrh; simp at hsrh
  | cons y ys =>
  have hy : y = '}' := by rw [hsr] at hsrh; simpa using hsrh
  subst hy
  have hE : firstIdxFrom (fun x => x = '}') (cleanPart full).reverse = some suf.length := by
    rw [hclean, List.reverse_append, List.reverse_append, hsr]
    rw [show suf.reverse ++ (('}' :: ys) ++ pre.reverse) =
      suf.reverse ++ '}' :: (ys ++ pre.reverse) by simp]
    rw [show suf.length = suf.reverse.length by simp]
    apply firstIdxFrom_append
    · intro c hc
      rw [List.mem_reverse] at hc
      simpa using hsuf c hc
    · simp
  have hlen : (cleanPart full).length = pre.length + (stail.length + 1) + suf.length := by
    rw [hclean]
    simp only [List.length_append, List.length_cons]
  have hstlen : 1 ≤ stail.length := by
    cases stail with
    | nil => exact absurd rfl hst
    | cons _ _ => simp
  have hij : pre.length < (cleanPart full).length - 1 - suf.length := by omega
  have hfind := parse_response_of_find hS hE hij
  rw [hfind, hclean]
  rw [show (pre ++ ('{' :: stail) ++ suf).drop pre.length = ('{' :: stail) ++ suf by
    rw [List.append_assoc, List.drop_left]]
  rw [show (pre ++ ('{' :: stail) ++ suf).length - 1 - suf.length + 1 - pre.length =
      ('{' :: stail).length by
    simp only [List.length_append, List.length_cons]
    omega]
  exact List.take_left _ _

/-! Helper lemmas for the playlist builder, continued. -/

theorem prepare_length {α : Type} (sample : List α → Nat → List α)
    (shuffle : List α → List α)
    (config : List (List Char × Nat)) (repo : List Char → Option (List α))
    (hlen : ∀ (pool : List α) k, k ≤ pool.length → (sample pool k).length = k)
    (hshuf : ∀ l : List α, (shuffle l).Perm l) :
    (_prepare_interview_playlist sample shuffle config repo).length =
      (config.map (fun dc =>
        match repo dc.1 with
        | some pool => min dc.2 pool.length
        | none => 0)).sum := by
  have hperm := prepare_spec sample shuffle config repo hshuf
  rw [hperm.length_eq, List.length_join, List.map_map]
  congr 1
  apply List.map_congr_left
  intro dc _
  cases hdc : repo dc.1 with
  | none => simp [drawFor, hdc]
  | some pool =>
    simp [drawFor, hdc, hlen pool _ (Nat.min_le_right _ _)]

theorem prepare_blocks {α : Type} (sample : List α → Nat → List α)
    (repo : List Char → Option (List α)) (config : List (List Char × Nat))
    (hlen : ∀ (pool : List α) k, k ≤ pool.length → (sample pool k).length = k)
    (hsub : ∀ (pool : List α) k, k ≤ pool.length → (sample pool k).Subperm pool) :
    List.Forall₂ (fun dc blk =>
        match repo dc.1 with
        | some pool => blk.length = min dc.2 pool.length ∧ blk.Subperm pool
        | none => blk = ([] : List α))
      config (config.map (drawFor sample repo)) := by
  induction config with
  | nil => simp
  | cons dc rest ih =>
    rw [List.map_cons]
    refine List.Forall₂.cons ?_ ih
    cases hdc : repo dc.1 with
    | none => simp [drawFor, hdc]
    | some pool =>
      simp only [drawFor, hdc]
      exact ⟨hlen pool _ (Nat.min_le_right _ _), hsub pool _ (Nat.min_le_right _ _)⟩

/-! Helper lemmas for the grading-path safety analysis. -/

theorem verdictSafe_connect : verdictSafeStr connectFallback = true := rfl

theorem verdictSafe_unexpected : verdictSafeStr unexpectedFallback = true := rfl

theorem evalVerdict_ok_of_safe {s : List Char} (h : verdictSafeStr s = true) :
    ∃ p, evalVerdict s = .ok p := by
  unfold verdictSafeStr at h
  unfold evalVerdict
  rcases hj : pyJsonLoads s with _ | v
  · exact ⟨_, rfl⟩
  · rw [hj] at h
    cases v <;> simp_all

theorem process_ok_of_safe {st : AgentState} (input : List Char) {r : HttpResult}
    (hE : st.state = .EVALUATING)
    (hlt : st.current_question_index < st.interview_playlist.length)
    (hsafe : llmOutcomeSafe r = true) :
    raisesP (process_user_response st input r) = false := by
  simp only [process_user_response]
  split
  · rfl
  · split
    · rename_i hq
      rw [List.get?_eq_none] at hq
      exact absurd hlt (not_lt.mpr hq)
    · split
      · rename_i e hc
        exfalso
        unfold llmOutcomeSafe at hsafe
        rw [hc] at hsafe
        cases hsafe
      · rename_i llmStr hc
        split
        · rename_i e' hv
          exfalso
          unfold llmOutcomeSafe at hsafe
          rw [hc] at hsafe
          obtain ⟨p, hp⟩ := evalVerdict_ok_of_safe hsafe
          rw [hp] at hv
          cases hv
        · rfl

/-! Claim theorems. -/

/-- C1 (amended): every grading-client failure the code handles resolves
to a total fallback — a transport error and a response body without a
choices field yield safe fallback strings inside `call_llm`, and every
submission in phase `EVALUATING` whose current question index is in
range and whose grading outcome returns a string that fails to
JSON-parse or parses to an object completes without raising.  (Dropped
from the original claim because the code violates it: model output that
parses to a non-object raises an uncaught `AttributeError`, and an
out-of-range question index raises `IndexError`.) -/
theorem C1_grading_path_amended :
    llmOutcomeSafe .transportError = true ∧
    (∀ body, pyContainsStr body choicesKey = .ok false →
      llmOutcomeSafe (.ok body) = true) ∧
    (∀ (st : AgentState) (input : List Char) (r : HttpResult),
      st.state = .EVALUATING →
      st.current_question_index < st.interview_playlist.length →
      llmOutcomeSafe r = true →
      raisesP (process_user_response st input r) = false) := by
  refine ⟨rfl, ?_, ?_⟩
  · intro body h
    have hcall : call_llm (.ok body) = .ok unexpectedFallback := by
      simp only [call_llm]
      rw [h]
      rfl
    unfold llmOutcomeSafe
    rw [hcall]
    exact verdictSafe_unexpected
  · intro st input r hE hlt hsafe
    exact process_ok_of_safe input hE hlt hsafe

/-- C1 witness: grading a live question through a transport error
returns without raising. -/
theorem C1_grading_path_witness :
    oneQStarted.state = .EVALUATING ∧
    oneQStarted.current_question_index < oneQStarted.interview_playlist.length ∧
    llmOutcomeSafe .transportError = true ∧
    raisesP (process_user_response oneQStarted aIn .transportError) = false :=
  ⟨rfl, by decide, rfl,
    C1_grading_path_amended.2.2 oneQStarted aIn .transportError rfl (by decide) rfl⟩

/-- C1 counterexample: in a reachable EVALUATING state, a grading result
whose model output is the JSON literal null — a non-object — makes
`process_user_response` raise instead of producing a fallback verdict,
refuting the claim that every malformed or non-object model output
resolves to a total fallback value. -/
theorem C1_grading_path_counterexample :
    Reach [qW] oneQStarted ∧ oneQStarted.state = .EVALUATING ∧
    raisesP (process_user_response oneQStarted aIn nullResult) = true :=
  ⟨Reach.start _ _ Reach.init, rfl, rfl⟩

/-- C2: while phase is EVALUATING, a normally-returning submission
increments the attempt counter by exactly one and advances the playlist
index by exactly one iff the returned verdict is truthy or the attempt
counter has reached 2 after the increment; two consecutive incorrect
answers to the same question advance the index after the second
submission regardless of its verdict. -/
theorem C2_submit_advancement :
    (∀ (st : AgentState) (input : List Char) (r : HttpResult)
       (s1 : AgentState) (fb ic : Json) (n : Nat),
      st.state = .EVALUATING →
      process_user_response st input r = .ok (s1, .verdict fb ic n) →
      s1.attempts_for_current_question = st.attempts_for_current_question + 1 ∧
      n = st.attempts_for_current_question + 1 ∧
      s1.current_question_index =
        (if (pyTruthy ic || decide (2 ≤ n)) = true then st.current_question_index + 1
         else st.current_question_index)) ∧
    (∀ (st : AgentState) (i1 i2 : List Char) (r1 r2 : HttpResult)
       (s1 s2 : AgentState) (fb1 ic1 fb2 ic2 : Json) (n1 n2 : Nat),
      st.state = .EVALUATING → st.attempts_for_current_question = 0 →
      process_user_response st i1 r1 = .ok (s1, .verdict fb1 ic1 n1) →
      pyTruthy ic1 = false →
      process_user_response s1 i2 r2 = .ok (s2, .verdict fb2 ic2 n2) →
      s2.current_question_index = st.current_question_index + 1) := by
  constructor
  · intro st input r s1 fb ic n hE h
    obtain ⟨_, hn, hatt, _, _, _, hidx⟩ := process_ok_verdict h
    rw [hn] at hatt
    exact ⟨hatt, hn, hidx⟩
  · intro st i1 i2 r1 r2 s1 s2 fb1 ic1 fb2 ic2 n1 n2 hE h0 h1 hic1 h2
    obtain ⟨_, hn1, hatt1, _, _, _, hidx1⟩ := process_ok_verdict h1
    obtain ⟨_, hn2, _, _, _, _, hidx2⟩ := process_ok_verdict h2
    have hn1' : n1 = 1 := by rw [hn1, h0]
    have hcond1 : (pyTruthy ic1 || decide (2 ≤ n1)) = false := by
      rw [hic1, hn1']
      rfl
    rw [hcond1] at hidx1
    simp at hidx1
    have hn2' : n2 = 2 := by
      rw [hn2, hatt1, hn1']
    have hcond2 : (pyTruthy ic2 || decide (2 ≤ n2)) = true := by
      rw [hn2']
      simp
    rw [hcond2] at hidx2
    simp at hidx2
    rw [hidx2, hidx1]

/-- C2 witness: a correct answer on attempt 1 advances the index by one
with the attempt counter equal to 1. -/
theorem C2_submit_advancement_witness :
    oneQStarted.state = .EVALUATING ∧
    process_user_response oneQStarted aIn correctResult =
      .ok (oneQAfterCorrect, .verdict (.str (("yes").toList)) (.bool true) 1) ∧
    oneQAfterCorrect.current_question_index = oneQStarted.current_question_index + 1 ∧
    oneQAfterCorrect.attempts_for_current_question = 1 := by
  refine ⟨rfl, rfl, ?_, rfl⟩
  have h := (C2_submit_advancement.1 oneQStarted aIn correctResult oneQAfterCorrect
    (.str (("yes").toList)) (.bool true) 1 rfl rfl).2.2
  simpa [pyTruthy] using h

/-- C3 (amended): under the `app.py` driving protocol — submissions only
while the Next-question button is hidden — and provided every
submission's grading call returns normally, the attempt counter never
exceeds 2 while phase is EVALUATING; and any submission whose attempt
counter reaches 2 advances the playlist index in that same call.  Both
restrictions are necessary: unrestricted operation sequences violate
the bound, as the counterexample shows, and a raising submission leaves
the button hidden with the counter already incremented, after which
further submissions exceed the bound as well. -/
theorem C3_attempt_bound_amended :
    (∀ (pl : List Question) (s : AgentState) (btn : Bool),
      UIReach pl s btn → s.state = .EVALUATING →
      s.attempts_for_current_question ≤ 2) ∧
    (∀ (st : AgentState) (input : List Char) (r : HttpResult)
       (s1 : AgentState) (fb ic : Json) (n : Nat),
      process_user_response st input r = .ok (s1, .verdict fb ic n) → 2 ≤ n →
      s1.current_question_index = st.current_question_index + 1) := by
  constructor
  · intro pl s btn h hE
    have hb := uireach_attempts h hE
    cases btn
    · simp at hb
      omega
    · simpa using hb
  · intro st input r s1 fb ic n h h2
    obtain ⟨_, _, _, _, _, _, hidx⟩ := process_ok_verdict h
    rw [hidx]
    simp [h2]

/-- C3 witness: a freshly asked question in a protocol-reachable state
satisfies the bound, and a second incorrect attempt forces the index
forward in the same call. -/
theorem C3_attempt_bound_witness :
    oneQStarted.attempts_for_current_question ≤ 2 ∧
    process_user_response oneAttemptSt aIn wrongResult =
      .ok (oneAttemptPost, .verdict (.str (("no").toList)) (.bool false) 2) ∧
    oneAttemptPost.current_question_index = oneAttemptSt.current_question_index + 1 :=
  ⟨C3_attempt_bound_amended.1 [qW] oneQStarted false (UIReach.start _ _ UIReach.init) rfl,
   rfl,
   C3_attempt_bound_amended.2 oneAttemptSt aIn wrongResult oneAttemptPost
     (.str (("no").toList)) (.bool false) 2 rfl (by decide)⟩

/-- C3 counterexample: with unrestricted session-facing calls and
arbitrary verdicts, three consecutive incorrect submissions on a
two-question playlist reach a state with phase EVALUATING and attempt
counter 3, refuting the claimed bound of 2 over all reachable states. -/
theorem C3_attempt_bound_counterexample :
    Reach [qW, qW] threeWrong ∧ threeWrong.state = .EVALUATING ∧
    threeWrong.attempts_for_current_question = 3 :=
  ⟨Reach.submit _ _ _ (Reach.submit _ _ _ (Reach.submit _ _ _
      (Reach.start _ _ Reach.init))),
   rfl, rfl⟩

/-- C4: the extractor — total by construction — discards everything up
to and including the first reasoning end-marker when one is present
(keeping the stripped remainder), returns the inclusive span from the
first brace-open to the last brace-close of the remainder when both
exist in that order, and otherwise returns the stripped remainder
unchanged; in particular an input with no braces is returned as-is. -/
theorem C4_extractor_spec :
    (∀ l : List Char,
      (hasMarker l = false ∧ cleanPart l = pyStrip l) ∨
      (∃ pre, l = pre ++ thinkMarker ++ afterMarker l ∧
        (∀ p q, l = p ++ thinkMarker ++ q → pre.length ≤ p.length) ∧
        cleanPart l = pyStrip (afterMarker l))) ∧
    (∀ l : List Char,
      (∃ a t b, cleanPart l = a ++ t ++ b ∧ (∀ c ∈ a, c ≠ '{') ∧ (∀ c ∈ b, c ≠ '}') ∧
        t.head? = some '{' ∧ t.getLast? = some '}' ∧ extract_json_payload l = t) ∨
      (extract_json_payload l = cleanPart l ∧
        ∀ i j, (cleanPart l).get? i = some '{' → (cleanPart l).get? j = some '}' →
          j < i)) ∧
    extract_json_payload (("no braces here").toList) = ("no braces here").toList :=
  ⟨cleanPart_marker_spec, extract_disjunction, rfl⟩

/-- C4 witness: on an input with a reasoning block, the remainder kept
by the extractor is indeed the stripped text after the marker. -/
theorem C4_extractor_spec_witness :
    cleanPart fullW = pyStrip (afterMarker fullW) := by
  rcases C4_extractor_spec.1 fullW with ⟨hf, _⟩ | ⟨pre, _, _, hc⟩
  · have hm : hasMarker fullW = true := rfl
    rw [hm] at hf
    cases hf
  · exact hc

/-- C5 (amended): the extractor round-trips whenever the braces delimit
only the payload: if the stripped remainder decomposes as a prefix with
no brace-open, the brace-delimited object text, and a suffix with no
brace-close, and the object text JSON-parses, then the extracted string
parses to the same value.  (For arbitrary suffix text the round-trip
fails, as the counterexample shows.) -/
theorem C5_roundtrip_amended :
    ∀ (full pre s suf : List Char) (v : Json),
      cleanPart full = pre ++ s ++ suf →
      (∀ c ∈ pre, c ≠ '{') → (∀ c ∈ suf, c ≠ '}') →
      s.head? = some '{' → s.getLast? = some '}' →
      pyJsonLoads s = some v →
      pyJsonLoads (extract_json_payload full) = some v := by
  intro full pre s suf v hclean hpre hsuf hh hl hv
  have he : extract_json_payload full = s := extract_of_decomp hclean hpre hsuf hh hl
  rw [he, hv]

/-- C5 witness: an object wrapped in a reasoning block and prose
round-trips to its value. -/
theorem C5_roundtrip_witness :
    pyJsonLoads (extract_json_payload fullW) = some objVal :=
  C5_roundtrip_amended fullW (("ok ").toList) objText ((" done").toList) objVal
    rfl (by decide) (by decide) rfl rfl rfl

/-- C5 counterexample: with an empty prefix and a suffix consisting of a
single brace-close, the object text is valid JSON but the extracted
string spans into the suffix and no longer parses, refuting the
round-trip for arbitrary suffix text. -/
theorem C5_roundtrip_counterexample :
    pyJsonLoads objText = some objVal ∧
    extract_json_payload (objText ++ ("\x7d").toList) = objText ++ ("\x7d").toList ∧
    pyJsonLoads (extract_json_payload (objText ++ ("\x7d").toList)) = none :=
  ⟨rfl, rfl, rfl⟩

/-- C6: for every configuration and repository, under the semantics of
`random.sample` — a selection of exactly k distinct elements of the pool
whenever k is at most the pool size — and of `random.shuffle` — a
permutation — the playlist length is the sum over configured
difficulties present in the repository of min(desired, available), the
playlist is a permutation of per-difficulty blocks each drawn without
replacement from its pool with exactly that size, and an empty or
missing repository yields an empty playlist. -/
theorem C6_playlist_build :
    ∀ {α : Type} (sample : List α → Nat → List α) (shuffle : List α → List α)
      (config : List (List Char × Nat)) (repo : List Char → Option (List α)),
      (∀ (pool : List α) k, k ≤ pool.length → (sample pool k).length = k) →
      (∀ (pool : List α) k, k ≤ pool.length → (sample pool k).Subperm pool) →
      (∀ l : List α, (shuffle l).Perm l) →
      ((_prepare_interview_playlist sample shuffle config repo).length =
        (config.map (fun dc =>
          match repo dc.1 with
          | some pool => min dc.2 pool.length
          | none => 0)).sum ∧
      List.Forall₂ (fun dc blk =>
          match repo dc.1 with
          | some pool => blk.length = min dc.2 pool.length ∧ blk.Subperm pool
          | none => blk = ([] : List α))
        config (config.map (drawFor sample repo)) ∧
      (_prepare_interview_playlist sample shuffle config repo).Perm
        ((config.map (drawFor sample repo)).join) ∧
      ((∀ d, repo d = none ∨ repo d = some []) →
        _prepare_interview_playlist sample shuffle config repo = [])) := by
  intro α sample shuffle config repo hlen hsub hshuf
  exact ⟨prepare_length sample shuffle config repo hlen hshuf,
    prepare_blocks sample repo config hlen hsub,
    prepare_spec sample shuffle config repo hshuf,
    fun hrepo => prepare_all_empty sample shuffle config repo hlen hshuf hrepo⟩

/-- C6 witness: with the take-sampler and the identity shuffle, a
one-difficulty configuration over a one-question pool builds a playlist
of length 1, and the missing repository builds an empty playlist. -/
theorem C6_playlist_build_witness :
    (_prepare_interview_playlist takeSample (fun l => l)
      [(("easy").toList, 1)]
      (fun d => if d = ("easy").toList then some [qW] else none)).length = 1 ∧
    _prepare_interview_playlist takeSample (fun l => l)
      [(("easy").toList, 1)]
      (fun _ => (none : Option (List Question))) = [] := by
  have hlen : ∀ (pool : List Question) k, k ≤ pool.length →
      (takeSample pool k).length = k := by
    intro pool k hk
    simp [takeSample, List.length_take, Nat.min_eq_left hk]
  have hsub : ∀ (pool : List Question) k, k ≤ pool.length →
      (takeSample pool k).Subperm pool := by
    intro pool k _
    exact (List.take_sublist k pool).subperm
  have hshuf : ∀ l : List Question, ((fun l => l) l).Perm l := fun l => List.Perm.refl l
  constructor
  · have h := (C6_playlist_build takeSample (fun l => l)
      [(("easy").toList, 1)]
      (fun d => if d = ("easy").toList then some [qW] else none) hlen hsub hshuf).1
    rw [h]
    decide
  · exact (C6_playlist_build takeSample (fun l => l) [(("easy").toList, 1)]
      (fun _ => (none : Option (List Question))) hlen hsub hshuf).2.2.2
      (fun _ => Or.inl rfl)

/-- C7 (amended): in every reachable CONCLUSION state no session-facing
operation changes the playlist index or the attempt counter, but the
transcript is not frozen — a submission still appends its user turn (and
advancing re-runs the conclusion). -/
theorem C7_conclusion_frozen_amended :
    ∀ (pl : List Question) (s : AgentState), Reach pl s → s.state = .CONCLUSION →
      (∀ r, (runStateU (start_interview s r)).current_question_index =
          s.current_question_index ∧
        (runStateU (start_interview s r)).attempts_for_current_question =
          s.attempts_for_current_question) ∧
      (∀ r, (runStateU (get_next_question s r)).current_question_index =
          s.current_question_index ∧
        (runStateU (get_next_question s r)).attempts_for_current_question =
          s.attempts_for_current_question) ∧
      (∀ input r,
        (runStateP (process_user_response s input r)).current_question_index =
          s.current_question_index ∧
        (runStateP (process_user_response s input r)).attempts_for_current_question =
          s.attempts_for_current_question ∧
        (runStateP (process_user_response s input r)).history =
          s.history ++ [⟨.user, .str input⟩]) := by
  intro pl s hreach hc
  have hge := reach_conclusion_exhausted hreach hc
  have hnlt : ¬ s.current_question_index < s.interview_playlist.length := by omega
  refine ⟨?_, ?_, ?_⟩
  · intro r
    simp only [start_interview]
    have hnlt2 : ¬ ({ s with state := .ASKING_QUESTION } : AgentState).current_question_index <
        ({ s with state := .ASKING_QUESTION } : AgentState).interview_playlist.length := hnlt
    rw [get_next_of_ge r hnlt2]
    exact ⟨(conclude_fields _ r).2.1, (conclude_fields _ r).2.2.1⟩
  · intro r
    rw [get_next_of_ge r hnlt]
    exact ⟨(conclude_fields s r).2.1, (conclude_fields s r).2.2.1⟩
  · intro input r
    have hne : s.state ≠ .EVALUATING := by rw [hc]; simp
    rw [process_not_eval input r hne]
    exact ⟨rfl, rfl, rfl⟩

/-- C7 witness: a concluded empty interview keeps its playlist index
across a further submission. -/
theorem C7_conclusion_frozen_witness :
    emptyConcluded.state = .CONCLUSION ∧
    (runStateP (process_user_response emptyConcluded aIn
      .transportError)).current_question_index =
      emptyConcluded.current_question_index :=
  ⟨rfl,
   ((C7_conclusion_frozen_amended [] emptyConcluded (Reach.start _ _ Reach.init)
      rfl).2.2 aIn .transportError).1⟩

/-- C7 counterexample: after conclusion the transcript still grows — a
submission appends its user turn beyond the single summary turn, so the
transcript is not frozen as claimed. -/
theorem C7_conclusion_frozen_counterexample :
    Reach [] emptyConcluded ∧ emptyConcluded.state = .CONCLUSION ∧
    emptyConcluded.history.length = 2 ∧
    (runStateP (process_user_response emptyConcluded (("hello").toList)
      .transportError)).history.length = 3 :=
  ⟨Reach.start _ _ Reach.init, rfl, rfl, rfl⟩

/-- C8 (amended): an absent repository file is recovered to the three
empty difficulty lists without an exception, every lookup in that bank
is empty, the playlist built from it is empty, and starting the
interview with the empty playlist concludes it immediately.  (A corrupt
file is not recovered: the parse failure raises, as the counterexample
shows.) -/
theorem C8_load_recovery_amended :
    _load_questions none = .ok emptyBankJ ∧
    (∀ d, bankLookup emptyBankJ d = none ∨ bankLookup emptyBankJ d = some []) ∧
    (∀ (sample : List Json → Nat → List Json) (shuffle : List Json → List Json)
       (config : List (List Char × Nat)),
      (∀ (pool : List Json) k, k ≤ pool.length → (sample pool k).length = k) →
      (∀ l : List Json, (shuffle l).Perm l) →
      _prepare_interview_playlist sample shuffle config (bankLookup emptyBankJ) = []) ∧
    (∀ r, (runStateU (start_interview (initState []) r)).state = .CONCLUSION) := by
  refine ⟨rfl, emptyBank_lookup, ?_, ?_⟩
  · intro sample shuffle config hlen hshuf
    exact prepare_all_empty sample shuffle config _ hlen hshuf emptyBank_lookup
  · intro r
    simp only [start_interview]
    have hnlt2 : ¬ ({ initState [] with state := .ASKING_QUESTION } : AgentState).current_question_index <
        ({ initState [] with state := .ASKING_QUESTION } : AgentState).interview_playlist.length := by
      decide
    rw [get_next_of_ge r hnlt2]
    exact (conclude_fields _ r).1

/-- C8 witness: the empty bank builds an empty playlist with the
take-sampler, and the empty-playlist interview concludes at start. -/
theorem C8_load_recovery_witness :
    _prepare_interview_playlist takeSample (fun l => l) []
      (bankLookup emptyBankJ) = [] ∧
    (runStateU (start_interview (initState []) .transportError)).state =
      .CONCLUSION := by
  refine ⟨?_, C8_load_recovery_amended.2.2.2 .transportError⟩
  apply C8_load_recovery_amended.2.2.1 takeSample (fun l => l) []
  · intro pool k hk
    simp [takeSample, List.length_take, Nat.min_eq_left hk]
  · exact fun l => List.Perm.refl l

/-- C8 counterexample: a present but corrupt repository file raises out
of the loader — only the file-not-found error is caught — refuting the
claim that a corrupt file degrades to an empty question set. -/
theorem C8_load_recovery_counterexample :
    raisesL (_load_questions (some (("notjson").toList))) = true := rfl

/-- C9: a submission while the phase is not EVALUATING appends only the
user turn, returns the fixed redirect response, and leaves the playlist
index, the attempt counter and the grading call count unchanged. -/
theorem C9_out_of_turn :
    ∀ (st : AgentState) (input : List Char) (r : HttpResult),
      st.state ≠ .EVALUATING →
      process_user_response st input r =
        .ok ({ st with history := st.history ++ [⟨.user, .str input⟩] },
          .redirect redirectMsg) ∧
      (runStateP (process_user_response st input r)).current_question_index =
        st.current_question_index ∧
      (runStateP (process_user_response st input r)).attempts_for_current_question =
        st.attempts_for_current_question ∧
      (runStateP (process_user_response st input r)).llmCalls = st.llmCalls := by
  intro st input r h
  have heq := process_not_eval input r h
  refine ⟨heq, ?_, ?_, ?_⟩ <;> rw [heq] <;> rfl

/-- C9 witness: submitting into a fresh INTRODUCTION-phase session
returns the redirect and changes only the transcript. -/
theorem C9_out_of_turn_witness :
    (initState []).state ≠ .EVALUATING ∧
    process_user_response (initState []) aIn .transportError =
      .ok ({ initState [] with history := [⟨.user, .str aIn⟩] },
        .redirect redirectMsg) :=
  ⟨by decide, (C9_out_of_turn (initState []) aIn .transportError (by decide)).1⟩

/-- C10: `process_user_response` never changes the phase — for every
state, input and grading outcome, whether it returns normally or raises;
in particular after the final question is answered the machine stays in
EVALUATING until `get_next_question` is invoked. -/
theorem C10_submit_phase_frame :
    ∀ (st : AgentState) (input : List Char) (r : HttpResult),
      (runStateP (process_user_response st input r)).state = st.state :=
  process_state_eq

end Excelytix
